import Mathlib

/-!
Verification of the PureToneGenerator real-time mixing engine
(`src/stream_tone.py`) against its natural-language specification.

The Python source is shallowly embedded: durations and wall-clock
quantities are exact rationals (`ℚ`), sample values are reals (`ℝ`),
sample counts and indices are `ℕ`/`ℤ`.  Python's `int(x)` conversion
(truncation toward zero) is modelled by `truncQ`; `numpy` slice
assignments over the envelope table are modelled by the structural
recursion `envGainGo`/`phaseIdGo` over the per-phase segment lengths,
which reproduces the same cell values because the segments are written
in order and (for valid patterns) do not overlap.
-/

namespace StreamTone

/-- Breath phase kinds, the `"INHALE"`/`"EXHALE"`/`"HOLD"` strings of
`HRV_PATTERNS` in the source. -/
inductive PhaseKind where
  | inhale
  | exhale
  | hold
deriving DecidableEq, Repr

/-- Default pair used for out-of-range pattern lookups (never reached on
the valid indices the theorems quantify over). -/
def dfltPhase : PhaseKind × ℚ := (PhaseKind.inhale, 0)

/-- Python `int()` applied to an exact rational: truncation toward zero. -/
def truncQ (q : ℚ) : ℤ :=
  if q < 0 then -⌊-q⌋ else ⌊q⌋

/-- `hrv_cycle_samples = int(hrv_cycle_seconds * sample_rate)` where
`hrv_cycle_seconds = sum(dur for _, dur in hrv_pattern)` — the length of
the envelope table allocated by `np.zeros`. -/
def cycleSamples (pat : List (PhaseKind × ℚ)) (R : ℕ) : ℤ :=
  truncQ ((pat.map Prod.snd).sum * R)

/-- The builder loop's per-phase sample counts (`_hrv_phase_lengths`):
every phase but the last gets `int(dur * sample_rate)` samples; the last
phase gets `hrv_cycle_samples - _sample_pos`, the remainder.  `total` is
the table length, `pos` the running `_sample_pos`. -/
def segLensGo (R : ℕ) (total : ℤ) : ℤ → List (PhaseKind × ℚ) → List ℤ
  | _, [] => []
  | pos, [_] => [total - pos]
  | pos, p :: q :: rest =>
      truncQ (p.2 * R) :: segLensGo R total (pos + truncQ (p.2 * R)) (q :: rest)

/-- The list `_hrv_phase_lengths` recorded by the builder. -/
def segLens (pat : List (PhaseKind × ℚ)) (R : ℕ) : List ℤ :=
  segLensGo R (cycleSamples pat R) 0 pat

/-- `_hrv_phase_starts[j]`: sample offset at which phase `j`'s segment
begins (the running `_sample_pos` when phase `j` is written). -/
def segStart (pat : List (PhaseKind × ℚ)) (R : ℕ) (j : ℕ) : ℤ :=
  ((segLens pat R).take j).sum

/-- Gain of a single sample of phase `i` at normalized progress `p`
(`_progress = np.linspace(0, 1, n, endpoint=False)`), exactly the
builder's branch on the phase name:
`INHALE → f + (1-f)·sin(p·π/2)`, `EXHALE → f + (1-f)·cos(p·π/2)`,
`HOLD → 1.0` if the previous phase is an inhale (`_i > 0 and
hrv_pattern[_i-1][0] == "INHALE"`) else the floor `f`.  The source's
final `else: np.ones` branch handles unknown phase-name strings and is
unreachable for the three-valued `PhaseKind`. -/
noncomputable def phaseGain (f : ℝ) (pat : List (PhaseKind × ℚ)) (i : ℕ) (p : ℝ) : ℝ :=
  if (pat.getD i dfltPhase).1 = PhaseKind.inhale then
    f + (1 - f) * Real.sin (p * Real.pi / 2)
  else if (pat.getD i dfltPhase).1 = PhaseKind.exhale then
    f + (1 - f) * Real.cos (p * Real.pi / 2)
  else if 0 < i ∧ (pat.getD (i - 1) dfltPhase).1 = PhaseKind.inhale then
    1
  else
    f

/-- Value of `_hrv_env_table` at offset `idx`, located by walking the
segment lengths; cells not written by any segment keep the `np.zeros`
initial value `0`.  Within segment `i` of length `n` the cell at local
offset `j` holds `phaseGain f pat i (j / n)`. -/
noncomputable def envGainGo (f : ℝ) (pat : List (PhaseKind × ℚ)) : ℕ → List ℤ → ℤ → ℝ
  | _, [], _ => 0
  | i, n :: ns, idx =>
      if idx < n then phaseGain f pat i ((idx : ℝ) / (n : ℝ))
      else envGainGo f pat (i + 1) ns (idx - n)

/-- `_hrv_env_table[idx]`. -/
noncomputable def envGain (f : ℝ) (pat : List (PhaseKind × ℚ)) (R : ℕ) (idx : ℤ) : ℝ :=
  envGainGo f pat 0 (segLens pat R) idx

/-- Value of `_hrv_phase_id_table` at a table offset (cells not covered
by a segment keep the `np.zeros` value `0`). -/
def phaseIdGo : ℕ → List ℤ → ℤ → ℕ
  | _, [], _ => 0
  | i, n :: ns, idx => if idx < n then i else phaseIdGo (i + 1) ns (idx - n)

/-- `_hrv_phase_id_table[idx]`. -/
def phaseId (pat : List (PhaseKind × ℚ)) (R : ℕ) (idx : ℤ) : ℕ :=
  phaseIdGo 0 (segLens pat R) idx

/-- `_hrv_phase_names[_hrv_phase_id_table[idx]]`: the phase name the
callback reads for a table offset. -/
def phaseKindAtSample (pat : List (PhaseKind × ℚ)) (R : ℕ) (idx : ℤ) : PhaseKind :=
  (pat.getD (phaseId pat R idx) dfltPhase).1

/-- `HRV_PATTERNS["box"]`: inhale 4 s, hold 4 s, exhale 4 s, hold 4 s. -/
def boxPat : List (PhaseKind × ℚ) :=
  [(PhaseKind.inhale, 4), (PhaseKind.hold, 4), (PhaseKind.exhale, 4), (PhaseKind.hold, 4)]

/-! ### Phase-transition detection (`audio_callback`, HRV section)

Per block the callback computes
`idx = (np.arange(frames) + hrv_phase) % hrv_cycle_samples`, reads
`current_phase_name = _hrv_phase_names[_hrv_phase_id_table[int(idx[-1])]]`
and compares it with the *name* stored in `hrv_last_phase_name`
(`None` on the very first block).  It fires the transition branch
exactly when the names differ, then stores the current name and
advances `hrv_phase += frames`. -/

/-- One invocation of the transition-detection part of `audio_callback`:
state is `(hrv_last_phase_name, hrv_phase)`; result is
`(fired, new state)`. -/
def detectStep (pat : List (PhaseKind × ℚ)) (R : ℕ) (s : Option PhaseKind × ℕ)
    (frames : ℕ) : Bool × (Option PhaseKind × ℕ) :=
  let lastIdx : ℤ := (((frames : ℤ) - 1) + (s.2 : ℤ)) % cycleSamples pat R
  let cur := phaseKindAtSample pat R lastIdx
  match s.1 with
  | none => (false, (some cur, s.2 + frames))
  | some prev =>
      if cur ≠ prev then (true, (some cur, s.2 + frames))
      else (false, (some prev, s.2 + frames))

/-! ### Per-block mixing pipeline (`audio_callback`)

The block is modelled as a function from the in-block sample index to a
sample value; the stereo buffer `outdata` as a function to a pair
(left, right).  The pipeline order follows the source: carrier →
isochronic pulse → HRV envelope → fade-in → long fade → output gain →
stereo split → additive cue layers → clip.  The cue/voice layers
(`_cue_buf`, `_peace_cue_buf`, `_claude_cue_buf`, `_audiobook_cue_buf`)
all mix with the same slice-add pattern, so they are modelled uniformly
as a list of active layers. -/

/-- Stereo routing of a cue layer: both channels, or one channel when
`alternate_mode` routes a voice item left/right. -/
inductive Routing where
  | both
  | left
  | right
deriving DecidableEq, Repr

/-- One active cue/voice layer: its buffer, current play position
(`_*_pos`), volume multiplier and routing. -/
structure CueLayer where
  buf : List ℝ
  pos : ℕ
  vol : ℝ
  routing : Routing

/-- Configuration and pre-block state of one `audio_callback` invocation. -/
structure CallbackCfg where
  frames : ℕ
  R : ℕ
  phase : ℕ
  currentSample : ℕ
  hrvPhase : ℕ
  amplitude : ℝ
  frequency : ℝ
  isoMode : Bool
  pulseFreq : ℝ
  hrvMode : Bool
  pat : List (PhaseKind × ℚ)
  envFloor : ℝ
  fadeSamples : ℕ
  fadeLong : Bool
  longFadeSeconds : ℝ
  absMode : Bool
  absRate : ℝ
  layers : List CueLayer
  integrityMode : Bool
  integrityInterval : ℚ
  lastEmit : ℚ

/-- `t = (np.arange(frames) + phase) / sample_rate` at in-block index `i`. -/
noncomputable def tAt (cfg : CallbackCfg) (i : ℕ) : ℝ :=
  ((i : ℝ) + cfg.phase) / cfg.R

/-- `wave = amplitude * np.sin(2 * np.pi * frequency * t)`. -/
noncomputable def carrierAt (cfg : CallbackCfg) (i : ℕ) : ℝ :=
  cfg.amplitude * Real.sin (2 * Real.pi * cfg.frequency * tAt cfg i)

/-- `if iso_mode: wave *= 0.5 * (1 + np.sin(2 * np.pi * pulse_freq * t))`. -/
noncomputable def afterPulse (cfg : CallbackCfg) (i : ℕ) : ℝ :=
  if cfg.isoMode then
    carrierAt cfg i * (0.5 * (1 + Real.sin (2 * Real.pi * cfg.pulseFreq * tAt cfg i)))
  else carrierAt cfg i

/-- `if hrv_mode: wave *= _hrv_env_table[(arange(frames) + hrv_phase) % hrv_cycle_samples]`. -/
noncomputable def afterEnv (cfg : CallbackCfg) (i : ℕ) : ℝ :=
  if cfg.hrvMode then
    afterPulse cfg i *
      envGain cfg.envFloor cfg.pat cfg.R (((i : ℤ) + cfg.hrvPhase) % cycleSamples cfg.pat cfg.R)
  else afterPulse cfg i

/-- `np.linspace(a, b, n)[i]` (endpoint included). -/
noncomputable def linspaceAt (a b : ℝ) (n i : ℕ) : ℝ :=
  if n ≤ 1 then a else a + (b - a) * i / (n - 1)

/-- Start-of-stream fade-in: applied only while `current_sample < fade_samples`,
multiplying by `np.linspace(current_sample/fade_samples, (current_sample+frames)/fade_samples, frames)`. -/
noncomputable def fadeInAt (cfg : CallbackCfg) (i : ℕ) : ℝ :=
  if cfg.currentSample < cfg.fadeSamples then
    linspaceAt ((cfg.currentSample : ℝ) / cfg.fadeSamples)
      (((cfg.currentSample : ℝ) + cfg.frames) / cfg.fadeSamples) cfg.frames i
  else 1

/-- Long fade-to-silence factor (`fade_long` branch): linear from 1 to 0
over `long_fade_seconds`, then 0. -/
noncomputable def longFadeFactor (cfg : CallbackCfg) : ℝ :=
  if cfg.fadeLong then
    if (cfg.currentSample : ℝ) / cfg.R < cfg.longFadeSeconds then
      1 - ((cfg.currentSample : ℝ) / cfg.R) / cfg.longFadeSeconds
    else 0
  else 1

/-- The mono wave right before `gain = 5.0` is applied — exactly the
array the integrity block converts to bytes. -/
noncomputable def preGainWave (cfg : CallbackCfg) (i : ℕ) : ℝ :=
  afterEnv cfg i * fadeInAt cfg i * longFadeFactor cfg

/-- `gain = 5.0  # global output gain multiplier`. -/
noncomputable def outputGain : ℝ := 5

/-- The stereo buffer written by `outdata[:] = ...`: bilateral
envelopes with floor 0.2 in `abs_mode`, else the mono wave duplicated,
in both cases multiplied by the output gain. -/
noncomputable def baseStereo (cfg : CallbackCfg) (i : ℕ) : ℝ × ℝ :=
  if cfg.absMode then
    (preGainWave cfg i * (0.2 + 0.8 * 0.5 * (1 + Real.sin (2 * Real.pi * cfg.absRate * tAt cfg i)))
        * outputGain,
     preGainWave cfg i * (0.2 + 0.8 * 0.5 * (1 - Real.sin (2 * Real.pi * cfg.absRate * tAt cfg i)))
        * outputGain)
  else (preGainWave cfg i * outputGain, preGainWave cfg i * outputGain)

/-- Additive mixing of one cue layer into the stereo block:
`L = min(frames, len(buf) - pos)`; for `i < L`,
`outdata[i, ch] += buf[pos + i] * vol` on the routed channel(s). -/
noncomputable def mixLayer (frames : ℕ) (out : ℕ → ℝ × ℝ) (l : CueLayer) : ℕ → ℝ × ℝ :=
  fun i =>
    if i < min frames (l.buf.length - l.pos) then
      let c := l.buf.getD (l.pos + i) 0 * l.vol
      match l.routing with
      | Routing.both => ((out i).1 + c, (out i).2 + c)
      | Routing.left => ((out i).1 + c, (out i).2)
      | Routing.right => ((out i).1, (out i).2 + c)
    else out i

/-- The stereo block after all active cue layers are mixed in, before
the final clip. -/
noncomputable def preClipOut (cfg : CallbackCfg) : ℕ → ℝ × ℝ :=
  cfg.layers.foldl (mixLayer cfg.frames) (baseStereo cfg)

/-- `np.clip(·, -1.0, 1.0)` on one sample. -/
noncomputable def clipSample (x : ℝ) : ℝ := max (-1) (min 1 x)

/-- The block finally handed to the audio device:
`np.clip(outdata, -1.0, 1.0, out=outdata)` applied to the mixed buffer. -/
noncomputable def callbackOut (cfg : CallbackCfg) (i : ℕ) : ℝ × ℝ :=
  (clipSample (preClipOut cfg i).1, clipSample (preClipOut cfg i).2)

/-! ### Telemetry sidecar handoff (`integrity_queue`, capacity 8) -/

/-- `integrity_queue.put_nowait(chunk_bytes)` wrapped in
`try/except Full: pass` — appends when the bounded queue (maxsize 8)
has room, silently drops the chunk otherwise.  Total function: the
`Full` exception is caught in the source, so no error escapes. -/
noncomputable def integrityPush (q : List (List ℝ)) (c : List ℝ) : List (List ℝ) :=
  if q.length < 8 then q ++ [c] else q

/-- `np.asarray(wave, dtype=np.float32).tobytes()`: the bytes pushed are
the pre-gain mono wave of the block. -/
noncomputable def integrityChunk (cfg : CallbackCfg) : List ℝ :=
  (List.range cfg.frames).map (preGainWave cfg)

/-- The integrity block of the callback: runs after
`current_sample += frames`, so `now_sec = (current_sample + frames) / sample_rate`;
pushes only when `integrity_mode` is on and the interval elapsed.
Returns the new queue and `_integrity_last_emit`. -/
noncomputable def telemetryUpdate (cfg : CallbackCfg) (q : List (List ℝ)) :
    List (List ℝ) × ℚ :=
  if cfg.integrityMode = true ∧
      cfg.integrityInterval ≤ ((cfg.currentSample + cfg.frames : ℕ) : ℚ) / cfg.R - cfg.lastEmit
  then (integrityPush q (integrityChunk cfg), ((cfg.currentSample + cfg.frames : ℕ) : ℚ) / cfg.R)
  else (q, cfg.lastEmit)

/-- One whole callback invocation as seen from outside: the audio block
written to the device and the telemetry side effect.  The audio part
takes no input from the queue at all — mirroring the source, where the
queue is only ever written with `put_nowait`. -/
noncomputable def audioCallbackStep (cfg : CallbackCfg) (q : List (List ℝ)) :
    (ℕ → ℝ × ℝ) × (List (List ℝ) × ℚ) :=
  (callbackOut cfg, telemetryUpdate cfg q)

/-! ### Breath-cue pre-emption (`audio_callback`, cue trigger)

On a phase transition with a cue still playing, the source multiplies
the tail of the *current* `_cue_buf` (a per-trigger copy, shared with
nothing else) by `np.linspace(1, 0, _xf)` with
`_xf = min(int(0.005 * sample_rate), len(_cue_buf) - _cue_pos)`, and
then immediately rebinds `_cue_buf = cue.copy()`, `_cue_pos = 0`. -/

/-- `int(0.005 * sample_rate)`: the crossfade window in samples. -/
def xfadeSamples (R : ℕ) : ℤ := truncQ ((5 / 1000 : ℚ) * R)

/-- The in-place fade the source writes into the old cue buffer:
samples `pos ≤ j < pos + xf` are multiplied by `linspace(1, 0, xf)`. -/
noncomputable def applyCueFade (b : List ℝ) (pos : ℕ) (R : ℕ) : List ℝ :=
  let xf : ℤ := min (xfadeSamples R) ((b.length : ℤ) - pos)
  if 1 < xf then
    b.mapIdx (fun j x =>
      if pos ≤ j ∧ (j : ℤ) < (pos : ℤ) + xf then
        x * (1 - ((j - pos : ℕ) : ℝ) / (((xf - 1 : ℤ) : ℤ) : ℝ))
      else x)
  else b

/-- The cue-layer state change performed by the transition branch when a
new cue is triggered: the faded copy of the old buffer is computed (as
in the source) but the buffer variable is rebound to a fresh copy of the
new cue in the same callback, so the faded old samples are never mixed. -/
noncomputable def cueTriggerStep (cueBuf : Option (List ℝ)) (cuePos : ℕ)
    (newCue : List ℝ) (R : ℕ) : Option (List ℝ) × ℕ :=
  match cueBuf with
  | some b =>
      if cuePos < b.length then
        let _faded : List ℝ := applyCueFade b cuePos R
        (some newCue, 0)
      else (some newCue, 0)
  | none => (some newCue, 0)

/-! ### Audiobook renderer / playback (`_audiobook_renderer_thread`,
`audio_callback` audiobook branch)

Shared state: `_audiobook_play_idx` (playback cursor, written only by
the callback), `_audiobook_next_render` (render cursor, written only by
the renderer thread), `_audiobook_rendered` (the render cache, keys
modelled as the list of cached indices) and `_audiobook_cue_buf`
(modelled by the index currently playing).  The external TTS call
`_render_peace_voice` returns a buffer or `None`; it is abstracted by a
success oracle `tts : ℕ → Bool` per content index.  An execution is an
arbitrary interleaving (schedule) of atomic renderer iterations,
callback trigger checks, and cue-exhaustion events. -/

/-- Events of the audiobook system: one renderer-loop iteration, one
callback audiobook-trigger check, or the natural end of the playing
sentence (cue buffer exhausted, `_audiobook_cue_buf = None`). -/
inductive ABStep where
  | render
  | trigger
  | finish
deriving DecidableEq, Repr

/-- Shared audiobook state. `emitted` records, in order, the content
indices the callback has started playing (the narration items emitted). -/
structure ABState where
  playIdx : ℕ
  nextRender : ℕ
  rendered : List ℕ
  cueBuf : Option ℕ
  emitted : List ℕ
deriving DecidableEq, Repr

/-- State after the resume seeding
`_audiobook_play_idx = checkpoint; _audiobook_next_render = _audiobook_play_idx`
with an empty cache and idle cue layer. -/
def abInit (checkpoint : ℕ) : ABState :=
  ⟨checkpoint, checkpoint, [], none, []⟩

/-- One iteration of the renderer loop (`while _audiobook_next_render < total`):
backpressure-sleep when more than `_AUDIOBOOK_LOOK_AHEAD = 10` ahead of
playback, else render index `next_render` (cache it only when the TTS
call yields a buffer), advance the render cursor, and evict cached
indices `< play_idx - 2`. -/
def renderStep (tts : ℕ → Bool) (total : ℕ) (s : ABState) : ABState :=
  if s.nextRender < total then
    if (10 : ℤ) < (s.nextRender : ℤ) - (s.playIdx : ℤ) then s
    else
      let rendered₁ := if tts s.nextRender then s.rendered ++ [s.nextRender] else s.rendered
      let rendered₂ := rendered₁.filter fun (i : ℕ) => decide (¬ ((i : ℤ) < (s.playIdx : ℤ) - 2))
      { s with rendered := rendered₂, nextRender := s.nextRender + 1 }
  else s

/-- The audiobook branch of `audio_callback`:
`if _audiobook_cue_buf is None and _audiobook_play_idx in _audiobook_rendered:`
then start playing that index and advance `_audiobook_play_idx`. -/
def triggerStep (s : ABState) : ABState :=
  if s.cueBuf = none ∧ s.playIdx ∈ s.rendered then
    { s with cueBuf := some s.playIdx, playIdx := s.playIdx + 1,
             emitted := s.emitted ++ [s.playIdx] }
  else s

/-- Natural exhaustion of the playing sentence: the mixing code sets
`_audiobook_cue_buf = None` once fully played. -/
def finishStep (s : ABState) : ABState := { s with cueBuf := none }

/-- Dispatch one scheduled event. -/
def abStep (tts : ℕ → Bool) (total : ℕ) (s : ABState) : ABStep → ABState
  | ABStep.render => renderStep tts total s
  | ABStep.trigger => triggerStep s
  | ABStep.finish => finishStep s

/-- Run an arbitrary interleaving from the resume-seeded state. -/
def abRun (tts : ℕ → Bool) (total checkpoint : ℕ) (sched : List ABStep) : ABState :=
  sched.foldl (abStep tts total) (abInit checkpoint)

/-- Scenario B oracle: the external TTS call fails exactly on content
index 5 (returns no buffer there, a buffer everywhere else). -/
def ttsFail5 : ℕ → Bool := fun i => i != 5

/-- All-success TTS oracle. -/
def ttsAllOk : ℕ → Bool := fun _ => true

/-- A concrete callback configuration (first block of the `432`-preset
shape: 432 Hz carrier, box breathing, no active cue layers, telemetry
on) used to instantiate universally quantified theorems. -/
noncomputable def cfgW : CallbackCfg :=
  ⟨1, 44100, 0, 0, 0, 0.2, 432, false, 0, true, boxPat, 0.25, 44100, false, 1800,
    false, 1.5, [], true, 5, 0⟩

/-- Invariant of the audiobook system when seeded from checkpoint `c`:
everything rendered is at or after `c`, the render cursor never falls
below `c`, and the emitted narration items are exactly the consecutive
indices `c, c+1, …` in order. -/
def abInv (c : ℕ) (s : ABState) : Prop :=
  (∀ x ∈ s.rendered, c ≤ x) ∧ c ≤ s.nextRender ∧
  s.playIdx = c + s.emitted.length ∧
  s.emitted = List.range' c s.emitted.length

/-- Invariant of the Scenario-B run (20 items, TTS fails on index 5,
checkpoint 0): playback never passes slot 5, index 5 is never cached,
the render cursor never passes 16, and no index ≥ 16 is ever cached. -/
def c1Inv (s : ABState) : Prop :=
  s.playIdx ≤ 5 ∧ 5 ∉ s.rendered ∧ s.nextRender ≤ 16 ∧ ∀ x ∈ s.rendered, x < 16

theorem truncQ_eq_floor (q : ℚ) (h : 0 ≤ q) : truncQ q = ⌊q⌋ := by
  simp [truncQ, not_lt.2 h]

theorem truncQ_nonneg (q : ℚ) (h : 0 ≤ q) : 0 ≤ truncQ q := by
  rw [truncQ_eq_floor q h]
  exact Int.le_floor.2 (by exact_mod_cast h)

theorem segLensGo_length (R : ℕ) (T : ℤ) :
    ∀ (l : List (PhaseKind × ℚ)) (pos : ℤ), (segLensGo R T pos l).length = l.length := by
  intro l
  induction l with
  | nil => intro pos; simp [segLensGo]
  | cons p rest ih =>
    intro pos
    cases rest with
    | nil => simp [segLensGo]
    | cons q rest2 => simp [segLensGo, ih]

theorem segLens_length (pat : List (PhaseKind × ℚ)) (R : ℕ) :
    (segLens pat R).length = pat.length :=
  segLensGo_length R (cycleSamples pat R) pat 0

theorem segLensGo_sum (R : ℕ) (T : ℤ) :
    ∀ (l : List (PhaseKind × ℚ)) (pos : ℤ), l ≠ [] → (segLensGo R T pos l).sum = T - pos := by
  intro l
  induction l with
  | nil => intro pos h; exact absurd rfl h
  | cons p rest ih =>
    intro pos _
    cases rest with
    | nil => simp [segLensGo]
    | cons q rest2 =>
      simp only [segLensGo, List.sum_cons]
      rw [ih (pos + truncQ (p.2 * R)) (by simp)]
      ring

theorem sum_floor_le_floor_sum :
    ∀ l : List ℚ, (l.map fun q => ⌊q⌋).sum ≤ ⌊l.sum⌋ := by
  intro l
  induction l with
  | nil => simp
  | cons a tl ih =>
    simp only [List.map_cons, List.sum_cons]
    calc ⌊a⌋ + (tl.map fun q => ⌊q⌋).sum ≤ ⌊a⌋ + ⌊tl.sum⌋ := by linarith
      _ ≤ ⌊a + tl.sum⌋ := by
          apply Int.le_floor.2
          push_cast
          exact add_le_add (Int.floor_le a) (Int.floor_le tl.sum)

theorem segLensGo_nonneg (R : ℕ) (T : ℤ) :
    ∀ (l : List (PhaseKind × ℚ)) (pos : ℤ),
      (∀ p ∈ l, 0 ≤ p.2) →
      pos + (l.map fun p => truncQ (p.2 * R)).sum ≤ T →
      ∀ x ∈ segLensGo R T pos l, 0 ≤ x := by
  intro l
  induction l with
  | nil => intro pos _ _ x hx; simp [segLensGo] at hx
  | cons p rest ih =>
    intro pos hpos hle x hx
    have hp0 : (0 : ℚ) ≤ p.2 * R :=
      mul_nonneg (hpos p (by simp)) (by positivity)
    cases rest with
    | nil =>
      simp only [segLensGo, List.mem_singleton] at hx
      subst hx
      have h0 : 0 ≤ truncQ (p.2 * R) := truncQ_nonneg _ hp0
      simp only [List.map_cons, List.map_nil, List.sum_cons, List.sum_nil, add_zero] at hle
      omega
    | cons q rest2 =>
      simp only [segLensGo, List.mem_cons] at hx
      rcases hx with rfl | hx
      · exact truncQ_nonneg _ hp0
      · refine ih (pos + truncQ (p.2 * R)) (fun r hr => hpos r (by simp [hr])) ?_ x hx
        simp only [List.map_cons, List.sum_cons] at hle ⊢
        omega

theorem sum_map_snd_mul (r : ℚ) :
    ∀ pat : List (PhaseKind × ℚ),
      (pat.map fun p => p.2 * r).sum = (pat.map Prod.snd).sum * r := by
  intro pat
  induction pat with
  | nil => simp
  | cons p rest ih => simp [List.map_cons, List.sum_cons, ih, add_mul]

theorem segLens_nonneg (pat : List (PhaseKind × ℚ)) (R : ℕ)
    (hpos : ∀ p ∈ pat, 0 ≤ p.2) : ∀ x ∈ segLens pat R, 0 ≤ x := by
  refine segLensGo_nonneg R (cycleSamples pat R) pat 0 hpos ?_
  have htot : (0 : ℚ) ≤ (pat.map Prod.snd).sum * R := by
    apply mul_nonneg _ (by positivity)
    exact List.sum_nonneg (by
      intro x hx
      obtain ⟨p, hp, rfl⟩ := List.mem_map.1 hx
      exact hpos p hp)
  have hmap : (pat.map fun p => truncQ (p.2 * R)) = pat.map fun p => ⌊p.2 * (R : ℚ)⌋ := by
    apply List.map_congr_left
    intro p hp
    exact truncQ_eq_floor _ (mul_nonneg (hpos p hp) (by positivity))
  rw [zero_add, hmap, cycleSamples, truncQ_eq_floor _ htot]
  have hcomp : (pat.map fun p => ⌊p.2 * (R : ℚ)⌋)
      = ((pat.map fun p => p.2 * (R : ℚ)).map fun q => ⌊q⌋) := by
    simp [List.map_map, Function.comp]
  rw [hcomp]
  calc ((pat.map fun p => p.2 * (R : ℚ)).map fun q => ⌊q⌋).sum
      ≤ ⌊((pat.map fun p => p.2 * (R : ℚ)).sum)⌋ := sum_floor_le_floor_sum _
    _ = ⌊(pat.map Prod.snd).sum * (R : ℚ)⌋ := by rw [sum_map_snd_mul]

theorem segLens_sum (pat : List (PhaseKind × ℚ)) (R : ℕ) (hne : pat ≠ []) :
    (segLens pat R).sum = cycleSamples pat R := by
  rw [segLens, segLensGo_sum R (cycleSamples pat R) pat 0 hne, sub_zero]

theorem envGainGo_locate (f : ℝ) (pat : List (PhaseKind × ℚ)) :
    ∀ (j : ℕ) (lens : List ℤ) (i : ℕ) (idx : ℤ),
      (∀ x ∈ lens, 0 ≤ x) →
      j < lens.length →
      (lens.take j).sum ≤ idx →
      idx < (lens.take j).sum + lens.getD j 0 →
      envGainGo f pat i lens idx =
        phaseGain f pat (i + j)
          (((idx - (lens.take j).sum : ℤ) : ℝ) / ((lens.getD j 0 : ℤ) : ℝ)) := by
  intro j
  induction j with
  | zero =>
    intro lens i idx hnn hlen h1 h2
    cases lens with
    | nil => simp at hlen
    | cons n ns =>
      simp only [List.take_zero, List.sum_nil, List.getD_cons_zero, zero_add] at h1 h2
      simp only [envGainGo, if_pos h2, List.take_zero, List.sum_nil, List.getD_cons_zero,
        Nat.add_zero, sub_zero]
  | succ k ih =>
    intro lens i idx hnn hlen h1 h2
    cases lens with
    | nil => simp at hlen
    | cons n ns =>
      have hn : 0 ≤ n := hnn n (by simp)
      have hS : 0 ≤ (ns.take k).sum :=
        List.sum_nonneg (fun x hx => hnn x (by simp [List.take_subset _ _ hx]))
      simp only [List.take_succ_cons, List.sum_cons, List.getD_cons_succ] at h1 h2
      have hge : ¬ idx < n := by omega
      rw [envGainGo, if_neg hge]
      rw [ih ns (i + 1) (idx - n) (fun x hx => hnn x (by simp [hx]))
        (by simpa using hlen) (by omega) (by omega)]
      have harith : idx - n - (ns.take k).sum = idx - (n + (ns.take k).sum) := by ring
      rw [harith]
      congr 1
      omega

theorem exists_segment :
    ∀ (lens : List ℤ), (∀ x ∈ lens, 0 ≤ x) → ∀ idx : ℤ, 0 ≤ idx → idx < lens.sum →
      ∃ j, j < lens.length ∧ (lens.take j).sum ≤ idx ∧
        idx < (lens.take j).sum + lens.getD j 0 := by
  intro lens
  induction lens with
  | nil =>
    intro _ idx h1 h2
    simp only [List.sum_nil] at h2
    omega
  | cons n ns ih =>
    intro hnn idx h0 hlt
    by_cases h : idx < n
    · exact ⟨0, by simp, by simpa using h0, by simpa using h⟩
    · have hn : 0 ≤ n := hnn n (by simp)
      simp only [List.sum_cons] at hlt
      obtain ⟨j, hj, hA, hB⟩ :=
        ih (fun x hx => hnn x (by simp [hx])) (idx - n) (by omega) (by omega)
      refine ⟨j + 1, by simpa using hj, ?_, ?_⟩
      · simp only [List.take_succ_cons, List.sum_cons]
        omega
      · simp only [List.take_succ_cons, List.sum_cons, List.getD_cons_succ]
        omega

theorem phaseGain_bounds (f : ℝ) (pat : List (PhaseKind × ℚ)) (i : ℕ) (p : ℝ)
    (hf0 : 0 < f) (hf1 : f < 1) (hp0 : 0 ≤ p) (hp1 : p < 1) :
    f ≤ phaseGain f pat i p ∧ phaseGain f pat i p ≤ 1 := by
  have pi_pos := Real.pi_pos
  unfold phaseGain
  split_ifs with h1 h2 h3
  · have harg0 : 0 ≤ p * Real.pi / 2 := by positivity
    have hargpi : p * Real.pi / 2 ≤ Real.pi := by nlinarith
    have hs0 : 0 ≤ Real.sin (p * Real.pi / 2) :=
      Real.sin_nonneg_of_nonneg_of_le_pi harg0 hargpi
    have hs1 : Real.sin (p * Real.pi / 2) ≤ 1 := Real.sin_le_one _
    constructor <;> nlinarith
  · have harg0 : 0 ≤ p * Real.pi / 2 := by positivity
    have harg : p * Real.pi / 2 ≤ Real.pi / 2 := by nlinarith
    have hc0 : 0 ≤ Real.cos (p * Real.pi / 2) :=
      Real.cos_nonneg_of_mem_Icc ⟨by linarith, harg⟩
    have hc1 : Real.cos (p * Real.pi / 2) ≤ 1 := Real.cos_le_one _
    constructor <;> nlinarith
  · exact ⟨le_of_lt hf1, le_refl 1⟩
  · exact ⟨le_refl f, le_of_lt hf1⟩

/-- Claim C2, counterexample: the claim states the table length is
`round(total cycle seconds × sample rate)` for every valid pattern and
sample rate.  The builder uses Python `int()` (truncation): for the
valid single-phase pattern of duration 3/160 s at 44100 Hz the product
is 826.875, the allocated table length is 826, while rounding gives
827. -/
theorem c2_round_counterexample :
    cycleSamples [(PhaseKind.inhale, 3 / 160)] 44100 ≠ round (((3 : ℚ) / 160) * 44100) := by
  have h1 : cycleSamples [(PhaseKind.inhale, 3 / 160)] 44100 = 826 := by
    norm_num [cycleSamples, truncQ]
  have h2 : round (((3 : ℚ) / 160) * 44100) = 827 := by
    norm_num [round_eq]
  rw [h1, h2]
  decide

/-- Claim C2 (amended): for every valid breath pattern (non-empty, all
durations positive) and sample rate, the table length is
`int(total cycle seconds × sample rate)` (truncation, as in the
source), the recorded per-phase segment lengths are all nonnegative,
there is one per phase, and they sum exactly to the table length — no
gap, no overlap, the final phase absorbing the rounding remainder. -/
theorem c2_segments_tile (pat : List (PhaseKind × ℚ)) (R : ℕ)
    (hne : pat ≠ []) (hpos : ∀ p ∈ pat, 0 < p.2) :
    (segLens pat R).sum = cycleSamples pat R ∧
    (segLens pat R).length = pat.length ∧
    (∀ x ∈ segLens pat R, 0 ≤ x) :=
  ⟨segLens_sum pat R hne, segLens_length pat R,
    segLens_nonneg pat R fun p hp => le_of_lt (hpos p hp)⟩

/-- Witness for C2: the box pattern at 44100 Hz. -/
theorem c2_segments_tile_witness :
    (segLens boxPat 44100).sum = cycleSamples boxPat 44100 ∧
    (segLens boxPat 44100).length = boxPat.length ∧
    (∀ x ∈ segLens boxPat 44100, 0 ≤ x) :=
  c2_segments_tile boxPat 44100 (by decide) (by decide)

/-- Claim C3: in the built envelope table, every sample of a Hold
segment that immediately follows an Inhale phase has gain exactly 1.0,
and every sample of a Hold segment that immediately follows an Exhale
phase has gain exactly the floor value `f`. -/
theorem c3_hold_levels (f : ℝ) (pat : List (PhaseKind × ℚ)) (R : ℕ) (j : ℕ) (idx : ℤ)
    (hpos : ∀ p ∈ pat, 0 < p.2)
    (hj : j < pat.length)
    (hhold : (pat.getD j dfltPhase).1 = PhaseKind.hold)
    (hlo : segStart pat R j ≤ idx)
    (hhi : idx < segStart pat R j + (segLens pat R).getD j 0) :
    ((0 < j ∧ (pat.getD (j - 1) dfltPhase).1 = PhaseKind.inhale) →
        envGain f pat R idx = 1) ∧
    ((0 < j ∧ (pat.getD (j - 1) dfltPhase).1 = PhaseKind.exhale) →
        envGain f pat R idx = f) := by
  have hnn := segLens_nonneg pat R fun p hp => le_of_lt (hpos p hp)
  have hlen : j < (segLens pat R).length := by rw [segLens_length]; exact hj
  have hloc := envGainGo_locate f pat j (segLens pat R) 0 idx hnn hlen hlo hhi
  rw [envGain, hloc, Nat.zero_add]
  constructor
  · rintro ⟨hj0, hprev⟩
    simp only [phaseGain]
    rw [hhold, hprev]
    simp [hj0]
  · rintro ⟨hj0, hprev⟩
    simp only [phaseGain]
    rw [hhold, hprev]
    simp

/-- Witness for C3: box pattern at 44100 Hz, floor 1/4; first sample of
the Hold after the Inhale (offset 176400) and of the Hold after the
Exhale (offset 529200). -/
theorem c3_hold_levels_witness :
    envGain (1 / 4 : ℝ) boxPat 44100 176400 = 1 ∧
    envGain (1 / 4 : ℝ) boxPat 44100 529200 = 1 / 4 := by
  constructor
  · exact (c3_hold_levels (1 / 4) boxPat 44100 1 176400 (by decide) (by decide) (by decide)
      (by norm_num [segStart, segLens, segLensGo, cycleSamples, boxPat, truncQ])
      (by norm_num [segStart, segLens, segLensGo, cycleSamples, boxPat, truncQ])).1
      ⟨by decide, by decide⟩
  · exact (c3_hold_levels (1 / 4) boxPat 44100 3 529200 (by decide) (by decide) (by decide)
      (by norm_num [segStart, segLens, segLensGo, cycleSamples, boxPat, truncQ])
      (by norm_num [segStart, segLens, segLensGo, cycleSamples, boxPat, truncQ])).2
      ⟨by decide, by decide⟩

/-- Claim C4: every entry of the envelope table built from a valid
breath pattern with floor gain `f ∈ (0,1)` satisfies
`f ≤ gain ≤ 1.0` (Inhale samples follow `f + (1-f)·sin(p·π/2)` and
Exhale samples `f + (1-f)·cos(p·π/2)` for `p ∈ [0,1)`, Hold samples are
constant at `1` or `f`). -/
theorem c4_env_bounds (f : ℝ) (pat : List (PhaseKind × ℚ)) (R : ℕ) (idx : ℤ)
    (hf0 : 0 < f) (hf1 : f < 1)
    (hpos : ∀ p ∈ pat, 0 < p.2)
    (hidx0 : 0 ≤ idx) (hidxT : idx < cycleSamples pat R) :
    f ≤ envGain f pat R idx ∧ envGain f pat R idx ≤ 1 := by
  have hne : pat ≠ [] := by
    rintro rfl
    simp only [cycleSamples, List.map_nil, List.sum_nil, zero_mul] at hidxT
    rw [truncQ_eq_floor 0 le_rfl] at hidxT
    simp at hidxT
    omega
  have hnn := segLens_nonneg pat R fun p hp => le_of_lt (hpos p hp)
  have hsum := segLens_sum pat R hne
  obtain ⟨j, hj, hA, hB⟩ :=
    exists_segment (segLens pat R) hnn idx hidx0 (by rw [hsum]; exact hidxT)
  have hloc := envGainGo_locate f pat j (segLens pat R) 0 idx hnn hj hA hB
  rw [envGain, hloc, Nat.zero_add]
  set S := ((segLens pat R).take j).sum with hS
  set L := (segLens pat R).getD j 0 with hL
  have hLpos : 0 < L := by omega
  have hp0 : (0 : ℝ) ≤ ((idx - S : ℤ) : ℝ) / ((L : ℤ) : ℝ) := by
    apply div_nonneg
    · exact_mod_cast Int.sub_nonneg.2 hA
    · exact_mod_cast le_of_lt hLpos
  have hp1 : ((idx - S : ℤ) : ℝ) / ((L : ℤ) : ℝ) < 1 := by
    rw [div_lt_one (by exact_mod_cast hLpos)]
    exact_mod_cast (by omega : idx - S < L)
  exact phaseGain_bounds f pat j _ hf0 hf1 hp0 hp1

/-- Witness for C4: floor 1/4, box pattern at 44100 Hz, table offset
300000. -/
theorem c4_env_bounds_witness :
    (1 / 4 : ℝ) ≤ envGain (1 / 4) boxPat 44100 300000 ∧
    envGain (1 / 4 : ℝ) boxPat 44100 300000 ≤ 1 :=
  c4_env_bounds (1 / 4) boxPat 44100 300000 (by norm_num) (by norm_num) (by decide)
    (by decide) (by norm_num [cycleSamples, boxPat, truncQ])

/-- Claim C10 (implicit): a Hold phase at pattern position 0 has no
preceding phase, and the builder's `_i > 0 and hrv_pattern[_i-1][0] ==
"INHALE"` test then selects the floor branch: every sample of such a
first Hold segment has gain exactly `f`, never 1.0. -/
theorem c10_first_hold_floor (f : ℝ) (pat : List (PhaseKind × ℚ)) (R : ℕ) (idx : ℤ)
    (hpos : ∀ p ∈ pat, 0 < p.2)
    (hne : pat ≠ [])
    (hhold : (pat.getD 0 dfltPhase).1 = PhaseKind.hold)
    (hlo : 0 ≤ idx)
    (hhi : idx < (segLens pat R).getD 0 0) :
    envGain f pat R idx = f := by
  have hnn := segLens_nonneg pat R fun p hp => le_of_lt (hpos p hp)
  have hlen : 0 < (segLens pat R).length := by
    rw [segLens_length]
    exact List.length_pos.2 hne
  have hloc := envGainGo_locate f pat 0 (segLens pat R) 0 idx hnn hlen
    (by simpa using hlo) (by simpa using hhi)
  rw [envGain, hloc]
  simp only [phaseGain]
  rw [hhold]
  simp

/-- Witness for C10: single-phase pattern `[(Hold, 2 s)]` at 1 Hz,
floor 1/2, table offset 0. -/
theorem c10_first_hold_floor_witness :
    envGain (1 / 2 : ℝ) [(PhaseKind.hold, 2)] 1 0 = 1 / 2 :=
  c10_first_hold_floor (1 / 2) [(PhaseKind.hold, 2)] 1 0 (by decide) (by decide)
    (by decide) (by decide)
    (by norm_num [segLens, segLensGo, cycleSamples, truncQ])

/-- Claim C5, counterexample: the claim states a transition event fires
exactly when the phase-id of the block's last sample differs from the
phase-id at the end of the previous block.  The callback compares phase
*names*: with the box pattern at 44100 Hz and 300000-frame blocks, the
first block ends in the first Hold (phase-id 1) and the second block
ends in the second Hold (phase-id 3) — the phase-ids differ, yet no
event fires because both phases are named `HOLD`. -/
theorem c5_phase_id_counterexample :
    (detectStep boxPat 44100 ((detectStep boxPat 44100 (none, 0) 300000).2) 300000).1 = false ∧
    phaseId boxPat 44100 ((((300000 : ℤ) - 1) + ((0 + 300000 : ℕ) : ℤ)) % cycleSamples boxPat 44100) ≠
      phaseId boxPat 44100 ((((300000 : ℤ) - 1) + ((0 : ℕ) : ℤ)) % cycleSamples boxPat 44100) := by
  constructor
  · norm_num [detectStep, phaseKindAtSample, phaseId, phaseIdGo, segLens, segLensGo,
      cycleSamples, boxPat, truncQ, dfltPhase]
  · norm_num [phaseId, phaseIdGo, segLens, segLensGo, cycleSamples, boxPat, truncQ]

theorem detectStep_state (pat : List (PhaseKind × ℚ)) (R : ℕ) (prev : PhaseKind)
    (pos frames : ℕ) :
    (detectStep pat R (some prev, pos) frames).2 =
      (some (phaseKindAtSample pat R
          ((((frames : ℤ) - 1) + ((pos : ℕ) : ℤ)) % cycleSamples pat R)),
        pos + frames) := by
  simp only [detectStep]
  split_ifs with h
  · rfl
  · rw [not_ne_iff] at h
    rw [h]

theorem detectStep_fires (pat : List (PhaseKind × ℚ)) (R : ℕ) (prev : PhaseKind)
    (pos frames : ℕ) :
    (detectStep pat R (some prev, pos) frames).1 = true ↔
      phaseKindAtSample pat R ((((frames : ℤ) - 1) + ((pos : ℕ) : ℤ)) % cycleSamples pat R)
        ≠ prev := by
  simp only [detectStep]
  split_ifs with h
  · simpa using h
  · simpa using h

/-- Claim C5 (amended): the callback fires a transition exactly when
the phase *kind* (name) of the block's last sample differs from the
phase kind of the previous block's last sample; at most one event can
fire per block (the detection result is a single flag), so all
boundaries a block spans are coalesced — including into no event at
all when the two block-final samples share a phase name. -/
theorem c5_kind_detection (pat : List (PhaseKind × ℚ)) (R : ℕ) (prev : PhaseKind)
    (pos f1 f2 : ℕ) :
    (detectStep pat R ((detectStep pat R (some prev, pos) f1).2) f2).1 = true ↔
      phaseKindAtSample pat R ((((f2 : ℤ) - 1) + ((pos + f1 : ℕ) : ℤ)) % cycleSamples pat R) ≠
        phaseKindAtSample pat R ((((f1 : ℤ) - 1) + ((pos : ℕ) : ℤ)) % cycleSamples pat R) := by
  rw [detectStep_state, detectStep_fires]

/-- Claim C6 (code bug): after the transition branch runs with a cue
still playing, the cue layer's state is `(the new cue, position 0)`
for every old buffer and position — the faded copy of the old buffer
(`applyCueFade`) is discarded by the immediate rebinding
`_cue_buf = cue.copy()`, so the old cue is cut off instantaneously and
its ~5 ms fade-out tail is never mixed into the output. -/
theorem c6_cue_replaced_instantly (b : List ℝ) (pos : ℕ) (newCue : List ℝ) (R : ℕ) :
    cueTriggerStep (some b) pos newCue R = (some newCue, 0) := by
  unfold cueTriggerStep
  by_cases h : pos < b.length <;> simp [h]

/-- Claim C7: every sample of the final stereo block lies in
`[-1, 1]` after the closing `np.clip`, for every configuration —
any number of active cue layers, any volumes, any carrier gain. -/
theorem c7_output_clipped (cfg : CallbackCfg) (i : ℕ) (h : i < cfg.frames) :
    (-1 ≤ (callbackOut cfg i).1 ∧ (callbackOut cfg i).1 ≤ 1) ∧
    (-1 ≤ (callbackOut cfg i).2 ∧ (callbackOut cfg i).2 ≤ 1) := by
  unfold callbackOut clipSample
  exact ⟨⟨le_max_left _ _, max_le (by norm_num) (min_le_left _ _)⟩,
    ⟨le_max_left _ _, max_le (by norm_num) (min_le_left _ _)⟩⟩

/-- Witness for C7: sample 0 of the concrete configuration `cfgW`. -/
theorem c7_output_clipped_witness :
    (-1 ≤ (callbackOut cfgW 0).1 ∧ (callbackOut cfgW 0).1 ≤ 1) ∧
    (-1 ≤ (callbackOut cfgW 0).2 ∧ (callbackOut cfgW 0).2 ≤ 1) :=
  c7_output_clipped cfgW 0 (by decide)

/-- Claim C8: the telemetry handoff is a non-blocking put of the
pre-gain mono wave bytes; the queue never grows beyond its capacity 8;
when it is full the chunk is dropped and the queue is unchanged; when
there is room (and telemetry is due) exactly the pre-gain chunk is
appended; and the audio output of the callback is the same whatever the
queue contents — backpressure cannot affect the audio. -/
theorem c8_telemetry_drop (cfg : CallbackCfg) (q : List (List ℝ)) (h : q.length ≤ 8) :
    (telemetryUpdate cfg q).1.length ≤ 8 ∧
    (q.length = 8 → (telemetryUpdate cfg q).1 = q) ∧
    (cfg.integrityMode = true →
      cfg.integrityInterval ≤ ((cfg.currentSample + cfg.frames : ℕ) : ℚ) / cfg.R - cfg.lastEmit →
      q.length < 8 →
      (telemetryUpdate cfg q).1 = q ++ [integrityChunk cfg]) ∧
    (∀ q₂ : List (List ℝ), (audioCallbackStep cfg q).1 = (audioCallbackStep cfg q₂).1) := by
  refine ⟨?_, ?_, ?_, fun q₂ => rfl⟩
  · unfold telemetryUpdate integrityPush
    split_ifs with h1 h2
    · simp only [List.length_append, List.length_singleton]
      omega
    · exact h
    · exact h
  · intro h8
    unfold telemetryUpdate integrityPush
    have hnot : ¬ q.length < 8 := by omega
    by_cases h1 : cfg.integrityMode = true ∧
        cfg.integrityInterval ≤ ((cfg.currentSample + cfg.frames : ℕ) : ℚ) / cfg.R - cfg.lastEmit
    · rw [if_pos h1, if_neg hnot]
    · rw [if_neg h1]
  · intro hm hint hlt
    unfold telemetryUpdate integrityPush
    rw [if_pos (And.intro hm hint), if_pos hlt]

/-- Witness for C8: `cfgW` with a full queue of 8 chunks — the queue is
unchanged (the chunk is dropped) and stays within capacity. -/
theorem c8_telemetry_drop_witness :
    (telemetryUpdate cfgW (List.replicate 8 ([] : List ℝ))).1 = List.replicate 8 [] ∧
    (telemetryUpdate cfgW (List.replicate 8 ([] : List ℝ))).1.length ≤ 8 := by
  refine ⟨?_, ?_⟩
  · exact (c8_telemetry_drop cfgW (List.replicate 8 []) (by simp)).2.1 (by simp)
  · exact (c8_telemetry_drop cfgW (List.replicate 8 []) (by simp)).1

theorem range'_snoc (c : ℕ) : ∀ n : ℕ, List.range' c (n + 1) = List.range' c n ++ [c + n] := by
  intro n
  induction n generalizing c with
  | zero => simp [List.range']
  | succ m ih =>
    rw [List.range'_succ, ih (c + 1), List.range'_succ]
    have hadd : c + 1 + m = c + (m + 1) := by omega
    rw [hadd, List.cons_append]

theorem abInv_step (tts : ℕ → Bool) (total c : ℕ) (st : ABStep) (s : ABState)
    (h : abInv c s) : abInv c (abStep tts total s st) := by
  obtain ⟨h1, h2, h3, h4⟩ := h
  cases st with
  | render =>
    simp only [abStep, renderStep]
    split_ifs with ha hb ht
    · exact ⟨h1, h2, h3, h4⟩
    · refine ⟨?_, Nat.le_succ_of_le h2, h3, h4⟩
      intro x hx
      simp only [List.mem_filter] at hx
      rcases List.mem_append.1 hx.1 with hx2 | hx2
      · exact h1 x hx2
      · simp only [List.mem_singleton] at hx2
        subst hx2
        exact h2
    · refine ⟨?_, Nat.le_succ_of_le h2, h3, h4⟩
      intro x hx
      simp only [List.mem_filter] at hx
      exact h1 x hx.1
    · exact ⟨h1, h2, h3, h4⟩
  | trigger =>
    simp only [abStep, triggerStep]
    split_ifs with ha
    · refine ⟨h1, h2, ?_, ?_⟩
      · show s.playIdx + 1 = c + (s.emitted ++ [s.playIdx]).length
        simp only [List.length_append, List.length_singleton]
        omega
      · show s.emitted ++ [s.playIdx] = List.range' c (s.emitted ++ [s.playIdx]).length
        simp only [List.length_append, List.length_singleton]
        rw [range'_snoc c s.emitted.length, ← h4, h3]
    · exact ⟨h1, h2, h3, h4⟩
  | finish => exact ⟨h1, h2, h3, h4⟩

theorem abInv_run (tts : ℕ → Bool) (total c : ℕ) :
    ∀ (sched : List ABStep) (s : ABState), abInv c s →
      abInv c (sched.foldl (abStep tts total) s) := by
  intro sched
  induction sched with
  | nil => intro s h; exact h
  | cons st rest ih =>
    intro s h
    exact ih _ (abInv_step tts total c st s h)

/-- Claim C9: seeding both cursors from a saved checkpoint `c` (as the
resume branch does) means the renderer only ever works at indices ≥ c —
its cursor starts at `c` and never falls below — and the narration
items the callback emits are exactly `c, c+1, …` in order, so the first
emitted item is content index `c`, not 0.  Holds for every TTS oracle
and every interleaving of renderer, trigger and cue-exhaustion events. -/
theorem c9_resume_checkpoint (tts : ℕ → Bool) (total c : ℕ) (sched : List ABStep) :
    (∀ x ∈ (abRun tts total c sched).rendered, c ≤ x) ∧
    c ≤ (abRun tts total c sched).nextRender ∧
    (abRun tts total c sched).emitted =
      List.range' c (abRun tts total c sched).emitted.length ∧
    ((abRun tts total c sched).emitted ≠ [] →
      (abRun tts total c sched).emitted.head? = some c) := by
  have h := abInv_run tts total c sched (abInit c)
    ⟨by simp [abInit], by simp [abInit], by simp [abInit], by simp [abInit]⟩
  obtain ⟨h1, h2, h3, h4⟩ := h
  have h4' : (abRun tts total c sched).emitted =
      List.range' c (abRun tts total c sched).emitted.length := h4
  refine ⟨h1, h2, h4', ?_⟩
  intro hne
  rw [h4']
  cases hl : (abRun tts total c sched).emitted.length with
  | zero =>
    rw [h4', hl] at hne
    simp at hne
  | succ n =>
    rw [List.range'_succ]
    rfl

/-- Witness for C9: checkpoint 37 on a 50-item source, all renders
succeeding, schedule = one renderer iteration then one callback
trigger: the first emitted narration item is index 37. -/
theorem c9_resume_checkpoint_witness :
    (abRun ttsAllOk 50 37 [ABStep.render, ABStep.trigger]).emitted.head? = some 37 :=
  (c9_resume_checkpoint ttsAllOk 50 37 [ABStep.render, ABStep.trigger]).2.2.2 (by decide)

theorem c1Inv_step (st : ABStep) (s : ABState) (h : c1Inv s) :
    c1Inv (abStep ttsFail5 20 s st) := by
  obtain ⟨h1, h2, h3, h4⟩ := h
  cases st with
  | render =>
    simp only [abStep, renderStep]
    split_ifs with ha hb ht
    · exact ⟨h1, h2, h3, h4⟩
    · have hnr : s.nextRender ≤ 15 := by omega
      refine ⟨h1, ?_, ?_, ?_⟩
      · intro hmem
        simp only [List.mem_filter] at hmem
        rcases List.mem_append.1 hmem.1 with hm2 | hm2
        · exact h2 hm2
        · simp only [List.mem_singleton] at hm2
          simp only [ttsFail5, bne_iff_ne, ne_eq] at ht
          exact ht hm2.symm
      · show s.nextRender + 1 ≤ 16
        omega
      · intro x hx
        simp only [List.mem_filter] at hx
        rcases List.mem_append.1 hx.1 with hx2 | hx2
        · exact h4 x hx2
        · simp only [List.mem_singleton] at hx2
          omega
    · have hnr : s.nextRender ≤ 15 := by omega
      refine ⟨h1, ?_, ?_, ?_⟩
      · intro hmem
        simp only [List.mem_filter] at hmem
        exact h2 hmem.1
      · show s.nextRender + 1 ≤ 16
        omega
      · intro x hx
        simp only [List.mem_filter] at hx
        exact h4 x hx.1
    · exact ⟨h1, h2, h3, h4⟩
  | trigger =>
    simp only [abStep, triggerStep]
    split_ifs with ha
    · have hne5 : s.playIdx ≠ 5 := by
        intro hp
        exact h2 (hp ▸ ha.2)
      refine ⟨?_, h2, h3, h4⟩
      show s.playIdx + 1 ≤ 5
      omega
    · exact ⟨h1, h2, h3, h4⟩
  | finish => exact ⟨h1, h2, h3, h4⟩

theorem c1Inv_run :
    ∀ (sched : List ABStep) (s : ABState), c1Inv s →
      c1Inv (sched.foldl (abStep ttsFail5 20) s) := by
  intro sched
  induction sched with
  | nil => intro s h; exact h
  | cons st rest ih =>
    intro s h
    exact ih _ (c1Inv_step st s h)

/-- Claim C1 (code bug): in Scenario B — 20 items, checkpoint 0, the
TTS call yielding no buffer exactly for index 5 — for *every*
interleaving of renderer iterations, callback trigger checks and cue
exhaustions: the playback cursor never passes slot 5 (the trigger
requires `play_idx in rendered` before advancing), index 5 is never
cached, the renderer's look-ahead backpressure then blocks its cursor
at 16 forever, and no index ≥ 16 is ever cached.  The claimed behavior
— all of 0–4 and 6–19 eventually cached and playback advancing past
slot 5 — is unreachable. -/
theorem c1_render_failure_stall (sched : List ABStep) :
    (abRun ttsFail5 20 0 sched).playIdx ≤ 5 ∧
    5 ∉ (abRun ttsFail5 20 0 sched).rendered ∧
    (abRun ttsFail5 20 0 sched).nextRender ≤ 16 ∧
    (∀ x ∈ (abRun ttsFail5 20 0 sched).rendered, x < 16) :=
  c1Inv_run sched (abInit 0)
    ⟨by simp [abInit], by simp [abInit], by simp [abInit], by simp [abInit]⟩

end StreamTone
